import Mathlib

/-!
Verification of the Haar-like feature module (src/haar.rs).

The development shallowly embeds the Rust source:

* `Sign`, `HaarFilter`, `EvalPoints` mirror the corresponding Rust types.
  The fixed arrays `points: [u32; 18]` and `weights: [i8; 9]` are modelled
  as lists of the corresponding lengths obtained by writing the active
  prefix and leaving the zero-initialised tail (`pack`).
* Machine integers (`u32`, `i8`, `i32`) are modelled as `Nat`/`Int`; all
  quantities reached by the claims stay far below the overflow bounds.
* The `HashMap` used by `combine_alternating` is modelled as an
  association list with unique keys (`addWeight` is the `entry/or_insert`
  update).  The map is only consumed by `into_iter → filter → sorted_by`,
  and since its keys are unique the sorted output is independent of the
  iteration order, so the association-list model produces the same
  `HaarFilter` as any `HashMap` iteration order would.
* `sorted_by` with the `(y, x)` key is modelled by `List.insertionSort`
  over the decidable total order `keyLe`; on unique keys every correct
  sort yields the same result as itertools' stable merge sort.
* The loop writing `points[2 * count]` panics when more than 9 aggregated
  points survive filtering (index past the end of `[u32; 18]`); this
  fallible step is modelled by `combine_alternating` returning `Option`,
  with `none` exactly in the panicking case.
-/

/-- Sign of the top-left region of a filter (src enum `Sign`). -/
inductive Sign
  | Positive
  | Negative
deriving DecidableEq, Repr

/-- A coordinate `(x, y)` in an integral image (Rust `(u32, u32)`). -/
abbrev Coord := Nat × Nat

/-- One aggregated map entry: a coordinate and its summed weight. -/
abbrev Entry := Coord × Int

/-- The Rust struct `HaarFilter`: 9 point slots stored flattened as
`[x0, y0, x1, y1, ...]` in an 18-element array, 9 weight slots, and the
number of active slots. -/
structure HaarFilter where
  points  : List Nat
  weights : List Int
  count   : Nat
deriving DecidableEq, Repr

/-- The Rust struct `EvalPoints`: four sample points with weights. -/
structure EvalPoints where
  points  : List Coord
  weights : List Int
deriving DecidableEq, Repr

/-- `EvalPoints::new`. -/
def EvalPoints.new (points : List Coord) (weights : List Int) : EvalPoints :=
  ⟨points, weights⟩

/-- `multiplier`: `Sign::Positive ↦ 1`, `Sign::Negative ↦ -1`. -/
def multiplier (sign : Sign) : Int :=
  if sign = Sign.Positive then 1 else -1

/-- The `Mul<i8>` impl for `HaarFilter`: multiply every weight slot. -/
def HaarFilter.mul (f : HaarFilter) (c : Int) : HaarFilter :=
  { f with weights := f.weights.map (fun w => w * c) }

/-- `HaarFilter::evaluate`: for `i` in `0..count`, accumulate
`I(points[2i], points[2i+1]) * weights[i]`. -/
def HaarFilter.evaluate (f : HaarFilter) (I : Nat → Nat → Int) : Int :=
  (List.range f.count).foldl
    (fun sum i =>
      sum + I (f.points.getD (2 * i) 0) (f.points.getD (2 * i + 1) 0) * f.weights.getD i 0)
    0

/-- `eval_points`: the inclusion-exclusion corner samples of one rectangle.
Slots start as `((0,0), 0)` and are overwritten when `top > 0` / `left > 0`;
the bottom-right corner always has weight `1`. -/
def eval_points (top left width height : Nat) : EvalPoints :=
  EvalPoints.new
    [ (if 0 < top ∧ 0 < left then (left - 1, top - 1) else (0, 0)),
      (if 0 < top then (left + width - 1, top - 1) else (0, 0)),
      (if 0 < left then (left - 1, top + height - 1) else (0, 0)),
      (left + width - 1, top + height - 1) ]
    [ (if 0 < top ∧ 0 < left then 1 else 0),
      (if 0 < top then -1 else 0),
      (if 0 < left then -1 else 0),
      1 ]

/-- `*acc.entry(p).or_insert(0) += w` on the association-list model of the
`HashMap`. -/
def addWeight : List Entry → Coord → Int → List Entry
  | [], p, w => [(p, w)]
  | (q, v) :: rest, p, w =>
      if q = p then (q, v + w) :: rest else (q, v) :: addWeight rest p w

/-- The inner loop of the fold in `combine_alternating`: add the four
sign-scaled corner contributions of one rectangle to the map. -/
def addRect (acc : List Entry) (sign : Int) (r : EvalPoints) : List Entry :=
  (r.points.zip r.weights).foldl (fun a pw => addWeight a pw.1 (sign * pw.2)) acc

/-- The fold of `combine_alternating`: accumulate every rectangle with the
running sign, which starts at `1` and flips after each rectangle. -/
def combine_fold (rects : List EvalPoints) : List Entry :=
  (rects.foldl (fun sa r => (addRect sa.1 sa.2 r, -sa.2)) (([] : List Entry), (1 : Int))).1

/-- The `sorted_by` key order: lexicographic on `(y, x)`. -/
def keyLe (a b : Entry) : Prop :=
  a.1.2 < b.1.2 ∨ (a.1.2 = b.1.2 ∧ a.1.1 ≤ b.1.1)

instance : DecidableRel keyLe := fun a b => by
  unfold keyLe; infer_instance

/-- The aggregated, zero-filtered, `(y, x)`-sorted entry list built by
`combine_alternating` before packing. -/
def sortedEntries (rects : List EvalPoints) : List Entry :=
  List.insertionSort keyLe ((combine_fold rects).filter (fun kv => kv.2 != 0))

/-- Flatten coordinates as the packing loop writes them:
`points[2i] = x_i`, `points[2i+1] = y_i`. -/
def flatPoints : List Entry → List Nat
  | [] => []
  | e :: rest => e.1.1 :: e.1.2 :: flatPoints rest

/-- Pack an entry list (of length at most 9) into the zero-initialised
fixed-size arrays of `HaarFilter`. -/
def pack (l : List Entry) : HaarFilter :=
  { points  := flatPoints l ++ List.replicate (18 - 2 * l.length) 0,
    weights := l.map (fun e => e.2) ++ List.replicate (9 - l.length) 0,
    count   := l.length }

/-- `combine_alternating`.  Returns `none` exactly when more than 9
aggregated points survive filtering, in which case the Rust packing loop
indexes past the end of `points: [u32; 18]` and panics. -/
def combine_alternating (rects : List EvalPoints) : Option HaarFilter :=
  if (sortedEntries rects).length ≤ 9 then some (pack (sortedEntries rects)) else none

/-- `HaarFilter::two_region_horizontal`. -/
def HaarFilter.two_region_horizontal (top left dx1 dx2 dy : Nat) (sign : Sign) :
    Option HaarFilter :=
  (combine_alternating
    [ eval_points top left dx1 dy,
      eval_points top (left + dx1) dx2 dy ]).map (fun f => f.mul (multiplier sign))

/-- `HaarFilter::two_region_vertical`. -/
def HaarFilter.two_region_vertical (top left dx dy1 dy2 : Nat) (sign : Sign) :
    Option HaarFilter :=
  (combine_alternating
    [ eval_points top left dx dy1,
      eval_points (top + dy1) left dx dy2 ]).map (fun f => f.mul (multiplier sign))

/-- `HaarFilter::three_region_horizontal`. -/
def HaarFilter.three_region_horizontal (top left dx1 dx2 dx3 dy : Nat) (sign : Sign) :
    Option HaarFilter :=
  (combine_alternating
    [ eval_points top left dx1 dy,
      eval_points top (left + dx1) dx2 dy,
      eval_points top (left + dx1 + dx2) dx3 dy ]).map (fun f => f.mul (multiplier sign))

/-- `HaarFilter::three_region_vertical`. -/
def HaarFilter.three_region_vertical (top left dx dy1 dy2 dy3 : Nat) (sign : Sign) :
    Option HaarFilter :=
  (combine_alternating
    [ eval_points top left dx dy1,
      eval_points (top + dy1) left dx dy2,
      eval_points (top + dy1 + dy2) left dx dy3 ]).map (fun f => f.mul (multiplier sign))

/-- `HaarFilter::four_region`: quadrants fed in the order top-left,
top-right, bottom-left, bottom-right. -/
def HaarFilter.four_region (top left dx1 dx2 dy1 dy2 : Nat) (sign : Sign) :
    Option HaarFilter :=
  (combine_alternating
    [ eval_points top left dx1 dy1,
      eval_points top (left + dx1) dx2 dy1,
      eval_points (top + dy1) left dx1 dy2,
      eval_points (top + dy1) (left + dx1) dx2 dy2 ]).map (fun f => f.mul (multiplier sign))

/-- Modelled from the spec: the integral image is built by a prefix-sum
transform that lives outside `src/` (module `integralimage`); per §6 the
value at `(x, y)` is the cumulative sum of all source intensities at
coordinates componentwise at most `(x, y)`. -/
def integral_image (rows : List (List Int)) (x y : Nat) : Int :=
  ((List.range (y + 1)).map (fun b =>
    ((List.range (x + 1)).map (fun a => (rows.getD b []).getD a 0)).sum)).sum

/-- The 5×5 test image of the concrete two-region scenario. -/
def scenarioRows : List (List Int) :=
  [[1, 2, 3, 4, 5], [6, 7, 8, 9, 0], [9, 8, 7, 6, 5], [4, 3, 2, 1, 0], [6, 5, 4, 2, 1]]

/-! ### Semantic notions used by the claims -/

/-- The keys of the association-list model of the aggregation map. -/
def keys (l : List Entry) : List Coord := l.map (fun e => e.1)

/-- Lookup in the association list; `0` for an absent key. -/
def getW : List Entry → Coord → Int
  | [], _ => 0
  | (q, v) :: rest, p => if q = p then v else getW rest p

/-- The value an entry list denotes on an integral image `I`. -/
def entrySum (l : List Entry) (I : Nat → Nat → Int) : Int :=
  (l.map (fun e => I e.1.1 e.1.2 * e.2)).sum

/-- A single rectangle's own sum over `I`, computed independently from its
`eval_points` corner lookups. -/
def rectSum (r : EvalPoints) (I : Nat → Nat → Int) : Int :=
  ((r.points.zip r.weights).map (fun pw => I pw.1.1 pw.1.2 * pw.2)).sum

/-- Alternating sum of the rectangles' sums, starting with sign `s`. -/
def altSum : Int → List EvalPoints → (Nat → Nat → Int) → Int
  | _, [], _ => 0
  | s, r :: rest, I => s * rectSum r I + altSum (-s) rest I

/-- The total weight a single rectangle contributes at coordinate `p`. -/
def rectW (r : EvalPoints) (p : Coord) : Int :=
  ((r.points.zip r.weights).map (fun pw => if pw.1 = p then pw.2 else 0)).sum

/-- The sign-alternated coordinate-to-total-weight map of a rectangle
sequence, starting with sign `s`. -/
def signedW : Int → List EvalPoints → Coord → Int
  | _, [], _ => 0
  | s, r :: rest, p => s * rectW r p + signedW (-s) rest p

/-- An integral image extended by zeros at negative indices, as the spec's
virtual padding formulation reads it. -/
def Iext (I : Nat → Nat → Int) (x y : Int) : Int :=
  if 0 ≤ x ∧ 0 ≤ y then I x.toNat y.toNat else 0


/-- Strict version of the `(y, x)` order. -/
def keyLt (a b : Entry) : Prop :=
  a.1.2 < b.1.2 ∨ (a.1.2 = b.1.2 ∧ a.1.1 < b.1.1)

instance : IsTotal Entry keyLe :=
  ⟨by intro a b; unfold keyLe; omega⟩

instance : IsTrans Entry keyLe :=
  ⟨by intro a b c; unfold keyLe; omega⟩

instance : IsAntisymm Entry keyLt :=
  ⟨by intro a b h1 h2; exfalso; unfold keyLt at h1 h2; omega⟩

/-- Default entry used for list indexing. -/
def dEntry : Entry := ((0, 0), 0)

/-- The coordinate pair stored at slot `i` of a filter. -/
def ptAt (f : HaarFilter) (i : Nat) : Coord :=
  (f.points.getD (2 * i) 0, f.points.getD (2 * i + 1) 0)

/-- The canonical-form invariants claimed for every constructed filter:
at most 9 active slots, non-zero active weights, and active coordinates
strictly increasing in lexicographic `(y, x)` order. -/
def filterInv (f : HaarFilter) : Prop :=
  f.count ≤ 9 ∧ (∀ i, i < f.count → f.weights.getD i 0 ≠ 0) ∧
    (∀ i j, i < j → j < f.count →
      (ptAt f i).2 < (ptAt f j).2 ∨
        ((ptAt f i).2 = (ptAt f j).2 ∧ (ptAt f i).1 < (ptAt f j).1))

/-- A concrete integral image used by witnesses: any injective-ish values. -/
def wI (x y : Nat) : Int := (x : Int) + 7 * (y : Int) + 1

/-- The `eval_points` decomposition of a rectangle `(top, left, width, height)`. -/
def rectPoints (r : Nat × Nat × Nat × Nat) : EvalPoints :=
  eval_points r.1 r.2.1 r.2.2.1 r.2.2.2

/-- Indicator image that is `1` exactly at the shared center `(1, 1)` of
the four-region shape anchored at `top = left = 1` with unit extents. -/
def centerInd (x y : Nat) : Int := if x = 1 ∧ y = 1 then 1 else 0

/-! ### Association-list lemmas -/

@[simp] lemma keys_nil : keys [] = [] := rfl

@[simp] lemma keys_cons (e : Entry) (l : List Entry) : keys (e :: l) = e.1 :: keys l := rfl

@[simp] lemma getW_nil (p : Coord) : getW [] p = 0 := rfl

@[simp] lemma getW_cons (q : Coord) (v : Int) (rest : List Entry) (p : Coord) :
    getW ((q, v) :: rest) p = if q = p then v else getW rest p := rfl

@[simp] lemma entrySum_nil (I : Nat → Nat → Int) : entrySum [] I = 0 := rfl

@[simp] lemma entrySum_cons (e : Entry) (l : List Entry) (I : Nat → Nat → Int) :
    entrySum (e :: l) I = I e.1.1 e.1.2 * e.2 + entrySum l I := by
  simp [entrySum]

@[simp] lemma addWeight_nil (p : Coord) (w : Int) : addWeight [] p w = [(p, w)] := rfl

lemma addWeight_cons (q : Coord) (v : Int) (rest : List Entry) (p : Coord) (w : Int) :
    addWeight ((q, v) :: rest) p w =
      if q = p then (q, v + w) :: rest else (q, v) :: addWeight rest p w := rfl

lemma getW_addWeight (l : List Entry) (p : Coord) (w : Int) (q : Coord) :
    getW (addWeight l p w) q = getW l q + (if q = p then w else 0) := by
  induction l with
  | nil =>
      rcases eq_or_ne q p with h | h
      · subst h; simp
      · simp [h, (Ne.symm h : p ≠ q)]
  | cons e rest ih =>
      obtain ⟨q', v⟩ := e
      rw [addWeight_cons]
      rcases eq_or_ne q' p with h | h
      · subst h
        rcases eq_or_ne q' q with h2 | h2
        · subst h2; simp
        · simp [h2, (Ne.symm h2 : ¬q = q')]
      · rw [if_neg h]
        rcases eq_or_ne q' q with h2 | h2
        · subst h2
          simp [(Ne.symm h : ¬p = q'), fun hc : q' = p => h hc]
        · simp [h2, ih]

lemma keys_addWeight (l : List Entry) (p : Coord) (w : Int) :
    (p ∈ keys l ∧ keys (addWeight l p w) = keys l) ∨
      (p ∉ keys l ∧ keys (addWeight l p w) = keys l ++ [p]) := by
  induction l with
  | nil => right; simp
  | cons e rest ih =>
      obtain ⟨q', v⟩ := e
      rw [addWeight_cons]
      rcases eq_or_ne q' p with h | h
      · subst h; left; simp
      · rw [if_neg h]
        rcases ih with ⟨hin, heq⟩ | ⟨hout, heq⟩
        · left
          exact ⟨by simp [hin], by simp [heq]⟩
        · right
          refine ⟨?_, by simp [heq]⟩
          simp only [keys_cons, List.mem_cons]
          rintro (hc | hc)
          · exact h hc.symm
          · exact hout hc

lemma mem_keys_addWeight (l : List Entry) (p : Coord) (w : Int) (q : Coord) :
    q ∈ keys (addWeight l p w) ↔ q ∈ keys l ∨ q = p := by
  rcases keys_addWeight l p w with ⟨hin, heq⟩ | ⟨hout, heq⟩
  · rw [heq]
    constructor
    · exact Or.inl
    · rintro (h | h)
      · exact h
      · subst h; exact hin
  · rw [heq]; simp

lemma nodup_keys_addWeight (l : List Entry) (p : Coord) (w : Int)
    (h : (keys l).Nodup) : (keys (addWeight l p w)).Nodup := by
  rcases keys_addWeight l p w with ⟨_, heq⟩ | ⟨hout, heq⟩
  · rwa [heq]
  · rw [heq]
    simpa [List.nodup_append, hout] using h

lemma entrySum_addWeight (l : List Entry) (p : Coord) (w : Int) (I : Nat → Nat → Int) :
    entrySum (addWeight l p w) I = entrySum l I + I p.1 p.2 * w := by
  induction l with
  | nil => simp
  | cons e rest ih =>
      obtain ⟨q', v⟩ := e
      rw [addWeight_cons]
      rcases eq_or_ne q' p with h | h
      · subst h; simp; ring
      · rw [if_neg h]
        simp [ih]; ring

lemma getW_eq_zero_of_not_mem (l : List Entry) (p : Coord) (h : p ∉ keys l) :
    getW l p = 0 := by
  induction l with
  | nil => rfl
  | cons e rest ih =>
      obtain ⟨q', v⟩ := e
      simp only [keys_cons, List.mem_cons] at h
      push_neg at h
      rw [getW_cons, if_neg (fun hc => h.1 hc.symm), ih h.2]

lemma mem_iff_getW (l : List Entry) (p : Coord) (w : Int) (h : (keys l).Nodup) :
    (p, w) ∈ l ↔ p ∈ keys l ∧ getW l p = w := by
  induction l with
  | nil => simp
  | cons e rest ih =>
      obtain ⟨q', v⟩ := e
      simp only [keys_cons, List.nodup_cons] at h
      rcases eq_or_ne q' p with hq | hq
      · subst hq
        have hz : getW rest q' = 0 := getW_eq_zero_of_not_mem rest q' h.1
        constructor
        · intro hm
          rcases List.mem_cons.mp hm with h1 | h1
          · obtain ⟨h2, h3⟩ := Prod.mk.injEq .. ▸ h1
            exact ⟨by simp, by simp [h3.symm]⟩
          · exact absurd (by simpa [keys] using List.mem_map_of_mem (fun e => e.1) h1) h.1
        · rintro ⟨_, hw⟩
          simp only [getW_cons, if_pos rfl] at hw
          subst hw
          exact List.mem_cons_self _ _
      · constructor
        · intro hm
          rcases List.mem_cons.mp hm with h1 | h1
          · exact absurd (congrArg Prod.fst h1) (by simpa using Ne.symm hq)
          · obtain ⟨h2, h3⟩ := (ih h.2).mp h1
            exact ⟨List.mem_cons_of_mem _ h2, by simpa [hq] using h3⟩
        · rintro ⟨hm, hw⟩
          rcases List.mem_cons.mp hm with h1 | h1
          · exact absurd h1.symm hq
          · simp only [getW_cons, if_neg hq] at hw
            exact List.mem_cons_of_mem _ ((ih h.2).mpr ⟨h1, hw⟩)

/-! ### Fold lemmas for `combine_alternating` -/

lemma getW_foldl_addWeight (s : Int) :
    ∀ (pws : List (Coord × Int)) (acc : List Entry) (q : Coord),
      getW (pws.foldl (fun a pw => addWeight a pw.1 (s * pw.2)) acc) q
        = getW acc q + s * ((pws.map (fun pw => if pw.1 = q then pw.2 else 0)).sum)
  | [], acc, q => by simp
  | pw :: rest, acc, q => by
      simp only [List.foldl_cons, List.map_cons, List.sum_cons]
      rw [getW_foldl_addWeight s rest, getW_addWeight]
      rcases eq_or_ne pw.1 q with h | h
      · simp only [if_pos h, if_pos h.symm]; ring
      · simp only [if_neg h, if_neg (Ne.symm h)]; ring

lemma getW_addRect (acc : List Entry) (s : Int) (r : EvalPoints) (q : Coord) :
    getW (addRect acc s r) q = getW acc q + s * rectW r q := by
  rw [addRect, getW_foldl_addWeight, rectW]

lemma entrySum_foldl_addWeight (s : Int) (I : Nat → Nat → Int) :
    ∀ (pws : List (Coord × Int)) (acc : List Entry),
      entrySum (pws.foldl (fun a pw => addWeight a pw.1 (s * pw.2)) acc) I
        = entrySum acc I + s * ((pws.map (fun pw => I pw.1.1 pw.1.2 * pw.2)).sum)
  | [], acc => by simp
  | pw :: rest, acc => by
      simp only [List.foldl_cons, List.map_cons, List.sum_cons]
      rw [entrySum_foldl_addWeight s I rest, entrySum_addWeight]
      ring

lemma entrySum_addRect (acc : List Entry) (s : Int) (r : EvalPoints) (I : Nat → Nat → Int) :
    entrySum (addRect acc s r) I = entrySum acc I + s * rectSum r I := by
  rw [addRect, entrySum_foldl_addWeight, rectSum]

lemma nodup_keys_foldl_addWeight (s : Int) :
    ∀ (pws : List (Coord × Int)) (acc : List Entry), (keys acc).Nodup →
      (keys (pws.foldl (fun a pw => addWeight a pw.1 (s * pw.2)) acc)).Nodup
  | [], acc, h => h
  | pw :: rest, acc, h => by
      simp only [List.foldl_cons]
      exact nodup_keys_foldl_addWeight s rest _ (nodup_keys_addWeight _ _ _ h)

lemma nodup_keys_addRect (acc : List Entry) (s : Int) (r : EvalPoints)
    (h : (keys acc).Nodup) : (keys (addRect acc s r)).Nodup :=
  nodup_keys_foldl_addWeight s _ acc h

lemma getW_combine_loop :
    ∀ (rects : List EvalPoints) (acc : List Entry) (s : Int) (q : Coord),
      getW ((rects.foldl (fun sa r => (addRect sa.1 sa.2 r, -sa.2)) (acc, s)).1) q
        = getW acc q + signedW s rects q
  | [], acc, s, q => by simp [signedW]
  | r :: rest, acc, s, q => by
      simp only [List.foldl_cons]
      rw [getW_combine_loop rest, getW_addRect, signedW]
      ring

lemma getW_combine_fold (rects : List EvalPoints) (q : Coord) :
    getW (combine_fold rects) q = signedW 1 rects q := by
  rw [combine_fold, getW_combine_loop]
  simp

lemma entrySum_combine_loop (I : Nat → Nat → Int) :
    ∀ (rects : List EvalPoints) (acc : List Entry) (s : Int),
      entrySum ((rects.foldl (fun sa r => (addRect sa.1 sa.2 r, -sa.2)) (acc, s)).1) I
        = entrySum acc I + altSum s rects I
  | [], acc, s => by simp [altSum]
  | r :: rest, acc, s => by
      simp only [List.foldl_cons]
      rw [entrySum_combine_loop I rest, entrySum_addRect, altSum]
      ring

lemma entrySum_combine_fold (rects : List EvalPoints) (I : Nat → Nat → Int) :
    entrySum (combine_fold rects) I = altSum 1 rects I := by
  rw [combine_fold, entrySum_combine_loop]
  simp

lemma nodup_keys_combine_loop :
    ∀ (rects : List EvalPoints) (acc : List Entry) (s : Int), (keys acc).Nodup →
      (keys ((rects.foldl (fun sa r => (addRect sa.1 sa.2 r, -sa.2)) (acc, s)).1)).Nodup
  | [], acc, s, h => h
  | r :: rest, acc, s, h => by
      simp only [List.foldl_cons]
      exact nodup_keys_combine_loop rest _ _ (nodup_keys_addRect _ _ _ h)

lemma nodup_keys_combine_fold (rects : List EvalPoints) :
    (keys (combine_fold rects)).Nodup := by
  rw [combine_fold]
  exact nodup_keys_combine_loop rects [] 1 (by simp)

/-! ### The canonical sorted form -/

lemma keys_def (l : List Entry) : keys l = l.map (fun e => e.1) := rfl

lemma sortedEntries_perm (rects : List EvalPoints) :
    List.Perm (sortedEntries rects) ((combine_fold rects).filter (fun kv => kv.2 != 0)) :=
  List.perm_insertionSort keyLe _

lemma nodup_keys_sortedEntries (rects : List EvalPoints) :
    (keys (sortedEntries rects)).Nodup := by
  have hsub : ((combine_fold rects).filter (fun kv => kv.2 != 0)).Sublist (combine_fold rects) :=
    List.filter_sublist _
  have hcf := nodup_keys_combine_fold rects
  rw [keys_def] at hcf ⊢
  have hfil : (((combine_fold rects).filter (fun kv => kv.2 != 0)).map
      (fun e : Entry => e.1)).Nodup :=
    (hsub.map (fun e : Entry => e.1)).nodup hcf
  exact (((sortedEntries_perm rects).map (fun e : Entry => e.1)).nodup_iff).mpr hfil

lemma sortedEntries_pairwise (rects : List EvalPoints) :
    (sortedEntries rects).Pairwise keyLt := by
  have hle : (sortedEntries rects).Pairwise keyLe :=
    List.sorted_insertionSort keyLe _
  have hne : (sortedEntries rects).Pairwise (fun a b : Entry => a.1 ≠ b.1) := by
    have h := nodup_keys_sortedEntries rects
    rw [keys_def, List.Nodup, List.pairwise_map] at h
    exact h
  exact (hle.and hne).imp (by
    rintro a b ⟨h1, h2⟩
    unfold keyLe at h1
    unfold keyLt
    simp only [ne_eq, Prod.ext_iff, not_and] at h2
    omega)

lemma mem_sortedEntries (rects : List EvalPoints) (p : Coord) (w : Int) :
    (p, w) ∈ sortedEntries rects ↔ signedW 1 rects p = w ∧ w ≠ 0 := by
  rw [(sortedEntries_perm rects).mem_iff, List.mem_filter,
    mem_iff_getW _ _ _ (nodup_keys_combine_fold rects), getW_combine_fold]
  constructor
  · rintro ⟨⟨_, hw⟩, hne⟩
    exact ⟨hw, by simpa using hne⟩
  · rintro ⟨hw, hne⟩
    have hmem : p ∈ keys (combine_fold rects) := by
      by_contra hc
      rw [← getW_combine_fold rects p, getW_eq_zero_of_not_mem _ _ hc] at hw
      exact hne hw.symm
    exact ⟨⟨hmem, hw⟩, by simpa using hne⟩

lemma nodup_sortedEntries (rects : List EvalPoints) : (sortedEntries rects).Nodup :=
  (sortedEntries_pairwise rects).imp (by
    intro a b h1 heq
    subst heq
    unfold keyLt at h1
    omega)

/-- Determinism core: equal sign-alternated coordinate-to-weight maps yield
the same canonical entry list. -/
lemma sortedEntries_eq_of_signedW (r1 r2 : List EvalPoints)
    (h : ∀ p, signedW 1 r1 p = signedW 1 r2 p) :
    sortedEntries r1 = sortedEntries r2 := by
  have hperm : List.Perm (sortedEntries r1) (sortedEntries r2) := by
    rw [List.perm_ext_iff_of_nodup (nodup_sortedEntries r1) (nodup_sortedEntries r2)]
    intro e
    obtain ⟨p, w⟩ := e
    rw [mem_sortedEntries, mem_sortedEntries, h p]
  exact List.eq_of_perm_of_sorted hperm (sortedEntries_pairwise r1) (sortedEntries_pairwise r2)

/-! ### Evaluating a packed filter -/

lemma entrySum_append (l1 l2 : List Entry) (I : Nat → Nat → Int) :
    entrySum (l1 ++ l2) I = entrySum l1 I + entrySum l2 I := by
  simp [entrySum]

lemma entrySum_perm (l1 l2 : List Entry) (h : List.Perm l1 l2) (I : Nat → Nat → Int) :
    entrySum l1 I = entrySum l2 I :=
  List.Perm.sum_eq (h.map _)

lemma entrySum_filter (l : List Entry) (I : Nat → Nat → Int) :
    entrySum (l.filter (fun kv => kv.2 != 0)) I = entrySum l I := by
  induction l with
  | nil => rfl
  | cons e rest ih =>
      rcases eq_or_ne e.2 0 with h | h
      · rw [List.filter_cons_of_neg (by simpa using h)]
        simp [ih, h]
      · rw [List.filter_cons_of_pos (by simpa using h)]
        simp [ih]

lemma flatPoints_length : ∀ l : List Entry, (flatPoints l).length = 2 * l.length
  | [] => rfl
  | _ :: rest => by simp [flatPoints, flatPoints_length rest]; ring

lemma flatPoints_getD_even :
    ∀ (l : List Entry) (i : Nat), i < l.length →
      (flatPoints l).getD (2 * i) 0 = (l.getD i dEntry).1.1
  | e :: rest, 0, _ => rfl
  | e :: rest, i + 1, h => by
      have h2 : 2 * (i + 1) = 2 * i + 1 + 1 := by ring
      rw [flatPoints, h2, List.getD_cons_succ, List.getD_cons_succ, List.getD_cons_succ]
      exact flatPoints_getD_even rest i (by simpa using h)

lemma flatPoints_getD_odd :
    ∀ (l : List Entry) (i : Nat), i < l.length →
      (flatPoints l).getD (2 * i + 1) 0 = (l.getD i dEntry).1.2
  | e :: rest, 0, _ => rfl
  | e :: rest, i + 1, h => by
      have h2 : 2 * (i + 1) + 1 = 2 * i + 1 + 1 + 1 := by ring
      rw [flatPoints, h2, List.getD_cons_succ, List.getD_cons_succ, List.getD_cons_succ]
      exact flatPoints_getD_odd rest i (by simpa using h)

lemma map_snd_getD :
    ∀ (l : List Entry) (i : Nat), i < l.length →
      (l.map (fun e => e.2)).getD i 0 = (l.getD i dEntry).2
  | e :: rest, 0, _ => rfl
  | e :: rest, i + 1, h => by
      rw [List.map_cons, List.getD_cons_succ, List.getD_cons_succ]
      exact map_snd_getD rest i (by simpa using h)

lemma getD_append_left {α : Type} (l r : List α) (d : α) (n : Nat) (h : n < l.length) :
    (l ++ r).getD n d = l.getD n d := by
  induction l generalizing n with
  | nil => simp at h
  | cons a rest ih =>
      cases n with
      | zero => rfl
      | succ m =>
          simp only [List.cons_append, List.getD_cons_succ]
          exact ih m (by simpa using h)

lemma foldl_add_eq (g : Nat → Int) :
    ∀ (xs : List Nat) (a : Int), xs.foldl (fun s i => s + g i) a = a + (xs.map g).sum
  | [], a => by simp
  | x :: rest, a => by
      simp only [List.foldl_cons, List.map_cons, List.sum_cons]
      rw [foldl_add_eq g rest]
      ring

lemma pack_points_getD_even (l : List Entry) (i : Nat) (h : i < l.length) :
    (pack l).points.getD (2 * i) 0 = (l.getD i dEntry).1.1 := by
  rw [pack]
  rw [getD_append_left _ _ _ _ (by rw [flatPoints_length]; omega)]
  exact flatPoints_getD_even l i h

lemma pack_points_getD_odd (l : List Entry) (i : Nat) (h : i < l.length) :
    (pack l).points.getD (2 * i + 1) 0 = (l.getD i dEntry).1.2 := by
  rw [pack]
  rw [getD_append_left _ _ _ _ (by rw [flatPoints_length]; omega)]
  exact flatPoints_getD_odd l i h

lemma pack_weights_getD (l : List Entry) (i : Nat) (h : i < l.length) :
    (pack l).weights.getD i 0 = (l.getD i dEntry).2 := by
  rw [pack]
  rw [getD_append_left _ _ _ _ (by rw [List.length_map]; omega)]
  exact map_snd_getD l i h

/-- Evaluating a packed entry list is the weighted sum of its entries. -/
lemma evaluate_pack (l : List Entry) (I : Nat → Nat → Int) :
    (pack l).evaluate I = entrySum l I := by
  rw [HaarFilter.evaluate, foldl_add_eq]
  have hcount : (pack l).count = l.length := rfl
  rw [hcount]
  have key : ∀ k, k ≤ l.length →
      ((List.range k).map (fun i =>
        I ((pack l).points.getD (2 * i) 0) ((pack l).points.getD (2 * i + 1) 0)
          * (pack l).weights.getD i 0)).sum = entrySum (l.take k) I := by
    intro k
    induction k with
    | zero => simp
    | succ n ih =>
        intro hk
        have hn : n < l.length := hk
        rw [List.range_succ, List.map_append, List.sum_append, ih (Nat.le_of_lt hn)]
        rw [List.take_succ]
        rw [entrySum_append]
        congr 1
        have h9 : l[n]? = some (l.getD n dEntry) := by
          rw [List.getElem?_eq_getElem hn]
          exact congrArg some (List.getD_eq_getElem l dEntry hn).symm
        rw [h9]
        simp only [List.map_cons, List.map_nil, List.sum_cons, List.sum_nil, add_zero,
          Option.toList_some, entrySum_cons, entrySum_nil]
        rw [pack_points_getD_even l n hn, pack_points_getD_odd l n hn,
          pack_weights_getD l n hn]
  rw [key l.length (Nat.le_refl _), List.take_length]
  simp

/-- Linearity of a successfully combined filter. -/
lemma evaluate_combine_alternating (rects : List EvalPoints) (f : HaarFilter)
    (hf : combine_alternating rects = some f) (I : Nat → Nat → Int) :
    f.evaluate I = altSum 1 rects I := by
  rw [combine_alternating] at hf
  split at hf
  · obtain rfl := Option.some.inj hf
    rw [evaluate_pack, entrySum_perm _ _ (sortedEntries_perm rects), entrySum_filter,
      entrySum_combine_fold]
  · exact absurd hf (by simp)

/-! ### Weight scaling and canonical invariants -/

lemma map_mul_getD (ws : List Int) (c : Int) (i : Nat) :
    (ws.map (fun w => w * c)).getD i 0 = ws.getD i 0 * c := by
  induction ws generalizing i with
  | nil => simp
  | cons a rest ih =>
      cases i with
      | zero => rfl
      | succ m => simpa using ih m

lemma evaluate_mul (f : HaarFilter) (c : Int) (I : Nat → Nat → Int) :
    (f.mul c).evaluate I = c * f.evaluate I := by
  rw [HaarFilter.evaluate, HaarFilter.evaluate, foldl_add_eq, foldl_add_eq]
  have hc : (f.mul c).count = f.count := rfl
  have hp : (f.mul c).points = f.points := rfl
  have hw : (f.mul c).weights = f.weights.map (fun w => w * c) := rfl
  rw [hc, hp, hw]
  simp only [zero_add]
  have hfun : (fun i =>
        I (f.points.getD (2 * i) 0) (f.points.getD (2 * i + 1) 0)
          * (f.weights.map (fun w => w * c)).getD i 0)
      = fun i => c * (I (f.points.getD (2 * i) 0) (f.points.getD (2 * i + 1) 0)
          * f.weights.getD i 0) := by
    funext i
    rw [map_mul_getD]
    ring
  rw [hfun, List.sum_map_mul_left]

lemma snd_ne_zero_of_mem_sortedEntries (rects : List EvalPoints) (e : Entry)
    (he : e ∈ sortedEntries rects) : e.2 ≠ 0 := by
  have := (List.mem_filter.mp ((sortedEntries_perm rects).mem_iff.mp he)).2
  simpa using this

lemma filterInv_combine (rects : List EvalPoints) (f : HaarFilter)
    (hf : combine_alternating rects = some f) : filterInv f := by
  rw [combine_alternating] at hf
  split at hf
  case isFalse => exact absurd hf (by simp)
  case isTrue hlen =>
  obtain rfl := Option.some.inj hf
  have hcount : (pack (sortedEntries rects)).count = (sortedEntries rects).length := rfl
  refine ⟨by rw [hcount]; exact hlen, ?_, ?_⟩
  · intro i hi
    rw [hcount] at hi
    rw [pack_weights_getD _ _ hi]
    have hmem : (sortedEntries rects).getD i dEntry ∈ sortedEntries rects := by
      rw [List.getD_eq_getElem _ _ hi]
      exact List.getElem_mem hi
    exact snd_ne_zero_of_mem_sortedEntries rects _ hmem
  · intro i j hij hj
    rw [hcount] at hj
    have hi : i < (sortedEntries rects).length := Nat.lt_trans hij hj
    have hpi : ptAt (pack (sortedEntries rects)) i = ((sortedEntries rects).getD i dEntry).1 := by
      rw [ptAt, pack_points_getD_even _ _ hi, pack_points_getD_odd _ _ hi]
    have hpj : ptAt (pack (sortedEntries rects)) j = ((sortedEntries rects).getD j dEntry).1 := by
      rw [ptAt, pack_points_getD_even _ _ hj, pack_points_getD_odd _ _ hj]
    have hpair := List.pairwise_iff_get.mp (sortedEntries_pairwise rects) ⟨i, hi⟩ ⟨j, hj⟩ hij
    rw [keyLt] at hpair
    rw [hpi, hpj, List.getD_eq_getElem _ _ hi, List.getD_eq_getElem _ _ hj]
    simpa [List.get_eq_getElem] using hpair

lemma filterInv_mul (f : HaarFilter) (c : Int) (hc : c = 1 ∨ c = -1)
    (h : filterInv f) : filterInv (f.mul c) := by
  obtain ⟨h1, h2, h3⟩ := h
  have hcount : (f.mul c).count = f.count := rfl
  have hpt : ∀ i, ptAt (f.mul c) i = ptAt f i := fun i => rfl
  refine ⟨by rw [hcount]; exact h1, ?_, ?_⟩
  · intro i hi
    rw [hcount] at hi
    have hw : (f.mul c).weights = f.weights.map (fun w => w * c) := rfl
    rw [hw, map_mul_getD]
    exact mul_ne_zero (h2 i hi) (by rcases hc with rfl | rfl <;> norm_num)
  · intro i j hij hj
    rw [hcount] at hj
    rw [hpt, hpt]
    exact h3 i j hij hj

lemma multiplier_cases (sign : Sign) : multiplier sign = 1 ∨ multiplier sign = -1 := by
  cases sign <;> simp [multiplier]

lemma filterInv_of_map_mul (o : Option HaarFilter) (rects : List EvalPoints) (sign : Sign)
    (f : HaarFilter) (ho : o = combine_alternating rects)
    (hf : o.map (fun g => g.mul (multiplier sign)) = some f) : filterInv f := by
  subst ho
  rw [Option.map_eq_some'] at hf
  obtain ⟨g, hg, rfl⟩ := hf
  exact filterInv_mul g _ (multiplier_cases sign) (filterInv_combine rects g hg)

/-! ### Closed forms of per-rectangle weights and sums -/

lemma rectW_eval_points (t l w h : Nat) (p : Coord) :
    rectW (eval_points t l w h) p =
      (if 0 < t ∧ 0 < l ∧ (l - 1, t - 1) = p then 1 else 0)
      + (if 0 < t ∧ (l + w - 1, t - 1) = p then -1 else 0)
      + (if 0 < l ∧ (l - 1, t + h - 1) = p then -1 else 0)
      + (if (l + w - 1, t + h - 1) = p then 1 else 0) := by
  rw [eval_points, EvalPoints.new, rectW]
  by_cases ht : 0 < t <;> by_cases hl : 0 < l <;>
    simp [ht, hl, List.zip] <;> ring

lemma signedW_pair (a b : EvalPoints) (p : Coord) :
    signedW 1 [a, b] p = rectW a p - rectW b p := by
  simp [signedW]
  ring

lemma signedW_quad (a b c d : EvalPoints) (p : Coord) :
    signedW 1 [a, b, c, d] p = rectW a p - rectW b p + rectW c p - rectW d p := by
  simp [signedW]
  ring

lemma altSum_pair (a b : EvalPoints) (I : Nat → Nat → Int) :
    altSum 1 [a, b] I = rectSum a I - rectSum b I := by
  simp [altSum]
  ring

lemma altSum_quad (a b c d : EvalPoints) (I : Nat → Nat → Int) :
    altSum 1 [a, b, c, d] I = rectSum a I - rectSum b I + rectSum c I - rectSum d I := by
  simp [altSum]
  ring

/-- The middle-row cancellation: the four quadrants of `four_region`, fed
with alternating signs `+, -, +, -`, have the same sign-alternated weight
map as the two full-height blocks of `two_region_horizontal`. -/
lemma signedW_four_eq_two (t l dx1 dx2 dy1 dy2 : Nat)
    (h1 : 1 ≤ dx1) (h4 : 1 ≤ dy1) (p : Coord) :
    signedW 1
      [ eval_points t l dx1 dy1, eval_points t (l + dx1) dx2 dy1,
        eval_points (t + dy1) l dx1 dy2, eval_points (t + dy1) (l + dx1) dx2 dy2 ] p
      = signedW 1
        [ eval_points t l dx1 (dy1 + dy2), eval_points t (l + dx1) dx2 (dy1 + dy2) ] p := by
  obtain ⟨px, py⟩ := p
  rw [signedW_quad, signedW_pair, rectW_eval_points, rectW_eval_points, rectW_eval_points,
    rectW_eval_points, rectW_eval_points, rectW_eval_points]
  have g1 : 0 < t + dy1 := by omega
  have g2 : 0 < l + dx1 := by omega
  simp only [g1, g2, true_and, Prod.mk.injEq, ← Nat.add_assoc]
  split_ifs <;> omega

lemma altSum_neg (I : Nat → Nat → Int) :
    ∀ (rects : List EvalPoints) (s : Int), altSum (-s) rects I = -altSum s rects I
  | [], s => by simp [altSum]
  | r :: rest, s => by
      rw [altSum, altSum, neg_neg, altSum_neg I rest s]
      ring

/-- The alternating sum as the literal `Σ (-1)^k * S_k` form of the claim. -/
lemma altSum_eq_sum_pow (rects : List EvalPoints) (I : Nat → Nat → Int) :
    altSum 1 rects I
      = ∑ k in Finset.range rects.length,
          (-1 : Int) ^ k * rectSum (rects.getD k (EvalPoints.new [] [])) I := by
  induction rects with
  | nil => simp [altSum]
  | cons r rest ih =>
      rw [altSum, altSum_neg, ih]
      rw [List.length_cons, Finset.sum_range_succ']
      simp only [List.getD_cons_succ, List.getD_cons_zero, pow_zero, one_mul, pow_succ]
      have hterm : ∀ k : Nat,
          (-1 : Int) ^ k * -1 * rectSum (rest.getD k (EvalPoints.new [] [])) I
            = -((-1 : Int) ^ k * rectSum (rest.getD k (EvalPoints.new [] [])) I) := by
        intro k; ring
      rw [Finset.sum_congr rfl (fun k _ => hterm k), Finset.sum_neg_distrib]
      ring

lemma rectSum_eval_points (t l w h : Nat) (I : Nat → Nat → Int) :
    rectSum (eval_points t l w h) I =
      (if 0 < t ∧ 0 < l then I (l - 1) (t - 1) else 0)
      - (if 0 < t then I (l + w - 1) (t - 1) else 0)
      - (if 0 < l then I (l - 1) (t + h - 1) else 0)
      + I (l + w - 1) (t + h - 1) := by
  rw [eval_points, EvalPoints.new, rectSum]
  by_cases ht : 0 < t <;> by_cases hl : 0 < l <;> simp [ht, hl, List.zip] <;> ring

/-! ### Claim theorems -/

/-- C3: for every rectangle with `width ≥ 1` and `height ≥ 1`, the pairs
returned by `eval_points` compute the inclusion-exclusion rectangle sum
`I(l+w-1, t+h-1) - I(l-1, t+h-1) - I(l+w-1, t-1) + I(l-1, t-1)` with
virtual zeros at row/column `-1`; a corner is omitted (weight `0`) exactly
when `top = 0` or `left = 0` makes its index `-1`, and the bottom-right
corner always carries weight `+1`. -/
theorem eval_points_corner_formula (t l w h : Nat) (I : Nat → Nat → Int)
    (hw : 1 ≤ w) (hh : 1 ≤ h) :
    rectSum (eval_points t l w h) I =
        Iext I ((l : Int) + w - 1) ((t : Int) + h - 1)
        - Iext I ((l : Int) - 1) ((t : Int) + h - 1)
        - Iext I ((l : Int) + w - 1) ((t : Int) - 1)
        + Iext I ((l : Int) - 1) ((t : Int) - 1)
      ∧ (eval_points t l w h).weights.getD 3 0 = 1
      ∧ (eval_points t l w h).points.getD 3 (0, 0) = (l + w - 1, t + h - 1)
      ∧ ((eval_points t l w h).weights.getD 0 0 = 0 ↔ t = 0 ∨ l = 0)
      ∧ ((eval_points t l w h).weights.getD 1 0 = 0 ↔ t = 0)
      ∧ ((eval_points t l w h).weights.getD 2 0 = 0 ↔ l = 0) := by
  refine ⟨?_, by simp [eval_points, EvalPoints.new], by simp [eval_points, EvalPoints.new],
    ?_, ?_, ?_⟩
  · rw [rectSum_eval_points]
    have ex1 : ((l : Int) + w - 1).toNat = l + w - 1 := by omega
    have ey1 : ((t : Int) + h - 1).toNat = t + h - 1 := by omega
    have hA : Iext I ((l : Int) + w - 1) ((t : Int) + h - 1) = I (l + w - 1) (t + h - 1) := by
      rw [Iext, if_pos ⟨by omega, by omega⟩, ex1, ey1]
    by_cases ht : 0 < t <;> by_cases hl : 0 < l
    · have ex2 : ((l : Int) - 1).toNat = l - 1 := by omega
      have ey2 : ((t : Int) - 1).toNat = t - 1 := by omega
      have hB : Iext I ((l : Int) - 1) ((t : Int) + h - 1) = I (l - 1) (t + h - 1) := by
        rw [Iext, if_pos ⟨by omega, by omega⟩, ex2, ey1]
      have hC : Iext I ((l : Int) + w - 1) ((t : Int) - 1) = I (l + w - 1) (t - 1) := by
        rw [Iext, if_pos ⟨by omega, by omega⟩, ex1, ey2]
      have hD : Iext I ((l : Int) - 1) ((t : Int) - 1) = I (l - 1) (t - 1) := by
        rw [Iext, if_pos ⟨by omega, by omega⟩, ex2, ey2]
      rw [hA, hB, hC, hD, if_pos ⟨ht, hl⟩, if_pos ht, if_pos hl]
      ring
    · have ey2 : ((t : Int) - 1).toNat = t - 1 := by omega
      have hB : Iext I ((l : Int) - 1) ((t : Int) + h - 1) = 0 := by
        rw [Iext, if_neg (by omega)]
      have hC : Iext I ((l : Int) + w - 1) ((t : Int) - 1) = I (l + w - 1) (t - 1) := by
        rw [Iext, if_pos ⟨by omega, by omega⟩, ex1, ey2]
      have hD : Iext I ((l : Int) - 1) ((t : Int) - 1) = 0 := by
        rw [Iext, if_neg (by omega)]
      rw [hA, hB, hC, hD, if_neg (fun hc => hl hc.2), if_pos ht, if_neg hl]
      ring
    · have ex2 : ((l : Int) - 1).toNat = l - 1 := by omega
      have hB : Iext I ((l : Int) - 1) ((t : Int) + h - 1) = I (l - 1) (t + h - 1) := by
        rw [Iext, if_pos ⟨by omega, by omega⟩, ex2, ey1]
      have hC : Iext I ((l : Int) + w - 1) ((t : Int) - 1) = 0 := by
        rw [Iext, if_neg (by omega)]
      have hD : Iext I ((l : Int) - 1) ((t : Int) - 1) = 0 := by
        rw [Iext, if_neg (by omega)]
      rw [hA, hB, hC, hD, if_neg (fun hc => ht hc.1), if_neg ht, if_pos hl]
      ring
    · have hB : Iext I ((l : Int) - 1) ((t : Int) + h - 1) = 0 := by
        rw [Iext, if_neg (by omega)]
      have hC : Iext I ((l : Int) + w - 1) ((t : Int) - 1) = 0 := by
        rw [Iext, if_neg (by omega)]
      have hD : Iext I ((l : Int) - 1) ((t : Int) - 1) = 0 := by
        rw [Iext, if_neg (by omega)]
      rw [hA, hB, hC, hD, if_neg (fun hc => ht hc.1), if_neg ht, if_neg hl]
      ring
  · by_cases ht : 0 < t <;> by_cases hl : 0 < l <;>
      simp [eval_points, EvalPoints.new, ht, hl] <;> omega
  · by_cases ht : 0 < t <;> simp [eval_points, EvalPoints.new, ht] <;> omega
  · by_cases hl : 0 < l <;> simp [eval_points, EvalPoints.new, hl] <;> omega

/-- Witness for C3 at a boundary rectangle (`top = 0`, `left = 0`). -/
theorem eval_points_corner_formula_witness :
    rectSum (eval_points 0 0 2 3) wI =
        Iext wI ((0 : Int) + 2 - 1) ((0 : Int) + 3 - 1)
        - Iext wI ((0 : Int) - 1) ((0 : Int) + 3 - 1)
        - Iext wI ((0 : Int) + 2 - 1) ((0 : Int) - 1)
        + Iext wI ((0 : Int) - 1) ((0 : Int) - 1)
      ∧ (eval_points 0 0 2 3).weights.getD 3 0 = 1
      ∧ (eval_points 0 0 2 3).points.getD 3 (0, 0) = (0 + 2 - 1, 0 + 3 - 1)
      ∧ ((eval_points 0 0 2 3).weights.getD 0 0 = 0 ↔ 0 = 0 ∨ 0 = 0)
      ∧ ((eval_points 0 0 2 3).weights.getD 1 0 = 0 ↔ 0 = 0)
      ∧ ((eval_points 0 0 2 3).weights.getD 2 0 = 0 ↔ 0 = 0) :=
  eval_points_corner_formula 0 0 2 3 wI (by decide) (by decide)

/-- C2 (amended): whenever `combine_alternating` succeeds (at most 9
aggregated points survive, otherwise the Rust packing loop panics), the
evaluation of the combined filter is the literal alternating sum
`Σ (-1)^k S_k` of the rectangles' independent corner-lookup sums. -/
theorem combine_linearity (rs : List (Nat × Nat × Nat × Nat)) (f : HaarFilter)
    (hdim : ∀ r ∈ rs, 1 ≤ r.2.2.1 ∧ 1 ≤ r.2.2.2)
    (hf : combine_alternating (rs.map rectPoints) = some f) (I : Nat → Nat → Int) :
    f.evaluate I = ∑ k in Finset.range rs.length,
      (-1 : Int) ^ k * rectSum (rectPoints (rs.getD k (0, 0, 1, 1))) I := by
  rw [evaluate_combine_alternating _ _ hf, altSum_eq_sum_pow, List.length_map]
  refine Finset.sum_congr rfl ?_
  intro k hk
  rw [Finset.mem_range] at hk
  congr 1
  rw [List.getD_eq_getElem _ _ (by simpa using hk), List.getElem_map,
    List.getD_eq_getElem _ _ hk]

/-- C2 counterexample: three pairwise disjoint unit rectangles yield 12
distinct nonzero corner points, exceeding the 9-slot capacity, so the code
panics (modelled as `none`) instead of producing a value satisfying the
claimed equation. -/
theorem combine_linearity_counterexample :
    combine_alternating
      (([(1, 1, 1, 1), (1, 10, 1, 1), (1, 20, 1, 1)] :
        List (Nat × Nat × Nat × Nat)).map rectPoints) = none := by
  decide

/-- Witness for C2 on a two-rectangle decomposition. -/
theorem combine_linearity_witness :
    HaarFilter.evaluate
        ⟨[0, 0, 1, 0, 2, 0, 0, 1, 1, 1, 2, 1, 0, 0, 0, 0, 0, 0],
          [1, -2, 1, -1, 2, -1, 0, 0, 0], 6⟩ wI
      = ∑ k in Finset.range
          ([(1, 1, 1, 1), (1, 2, 1, 1)] : List (Nat × Nat × Nat × Nat)).length,
          (-1 : Int) ^ k * rectSum (rectPoints
            (([(1, 1, 1, 1), (1, 2, 1, 1)] :
              List (Nat × Nat × Nat × Nat)).getD k (0, 0, 1, 1))) wI :=
  combine_linearity [(1, 1, 1, 1), (1, 2, 1, 1)] _ (by decide) (by decide) wI

/-- C8: combining the three adjacent unit rectangles of the canonicalization
scenario with alternating sign yields exactly the 8-point filter with
weights `[1, -2, 2, -1, -1, 2, -2, 1]` in row-major `(y, x)` order. -/
theorem combine_canonical_scenario :
    combine_alternating
      [ EvalPoints.new [(0, 0), (1, 0), (0, 1), (1, 1)] [1, -1, -1, 1],
        EvalPoints.new [(1, 0), (2, 0), (1, 1), (2, 1)] [1, -1, -1, 1],
        EvalPoints.new [(2, 0), (3, 0), (2, 1), (3, 1)] [1, -1, -1, 1] ]
      = some ⟨[0, 0, 1, 0, 2, 0, 3, 0, 0, 1, 1, 1, 2, 1, 3, 1, 0, 0],
          [1, -2, 2, -1, -1, 2, -2, 1, 0], 8⟩ := by
  decide

/-- C7: the reference two-region horizontal scenario on the 5×5 image
evaluates to 19 on that image's integral image. -/
theorem two_region_concrete_19 :
    (HaarFilter.two_region_horizontal 1 1 2 1 3 Sign.Positive).map
      (fun f => f.evaluate (integral_image scenarioRows)) = some 19 := by
  decide

/-- C1: divergence of `four_region` from its documented nine-term formula.
With all extents `1` and anchor `(1, 1)`, the code's filter evaluates the
center indicator image to `0` (the middle row cancels under the `+,-,+,-`
sign pattern), while the claimed formula
`I(A) - 2I(B) + I(C) - 2I(D) + 4I(E) - 2I(F) + I(G) - 2I(H) + I(I)`
gives `4` on the same image. -/
theorem four_region_formula_divergence :
    (HaarFilter.four_region 1 1 1 1 1 1 Sign.Positive).map
        (fun f => f.evaluate centerInd) = some 0
      ∧ centerInd 0 0 - 2 * centerInd 1 0 + centerInd 2 0
          - 2 * centerInd 0 1 + 4 * centerInd 1 1 - 2 * centerInd 2 1
          + centerInd 0 2 - 2 * centerInd 1 2 + centerInd 2 2 = 4 := by
  decide

/-- C6: in the code's four-region filter the shared center point
`(left + dx1 - 1, top + dy1 - 1) = (1, 1)` aggregates to weight `0` and is
dropped; the six active weights are `[1, -2, 1, -1, 2, -1]`, of magnitude
at most 2, so the claimed attained magnitude 4 at the center never occurs. -/
theorem four_region_center_cancelled :
    HaarFilter.four_region 1 1 1 1 1 1 Sign.Positive
      = some ⟨[0, 0, 1, 0, 2, 0, 0, 2, 1, 2, 2, 2, 0, 0, 0, 0, 0, 0],
          [1, -2, 1, -1, 2, -1, 0, 0, 0], 6⟩ := by
  decide

/-- C10: for every anchor, extents at least 1 and either sign, the filter
built by `four_region(top, left, dx1, dx2, dy1, dy2, sign)` is structurally
identical to `two_region_horizontal(top, left, dx1, dx2, dy1 + dy2, sign)`:
the middle-row corner contributions of the four quadrants cancel under the
alternating `+,-,+,-` signs. -/
theorem four_region_eq_two_region_horizontal (t l dx1 dx2 dy1 dy2 : Nat) (sign : Sign)
    (h1 : 1 ≤ dx1) (h2 : 1 ≤ dx2) (h3 : 1 ≤ dy1) (h4 : 1 ≤ dy2) :
    HaarFilter.four_region t l dx1 dx2 dy1 dy2 sign
      = HaarFilter.two_region_horizontal t l dx1 dx2 (dy1 + dy2) sign := by
  have hs := sortedEntries_eq_of_signedW _ _ (signedW_four_eq_two t l dx1 dx2 dy1 dy2 h1 h3)
  rw [HaarFilter.four_region, HaarFilter.two_region_horizontal, combine_alternating,
    combine_alternating, hs]

/-- Witness for C10 at a non-trivial anchor and extents. -/
theorem four_region_eq_two_region_horizontal_witness :
    HaarFilter.four_region 2 3 1 2 1 2 Sign.Negative
      = HaarFilter.two_region_horizontal 2 3 1 2 (1 + 2) Sign.Negative :=
  four_region_eq_two_region_horizontal 2 3 1 2 1 2 Sign.Negative
    (by decide) (by decide) (by decide) (by decide)

/-- C9: determinism of canonicalization — any two sequences of corner
contribution sets whose sign-alternated contributions aggregate to the same
coordinate-to-total-weight map produce identical `HaarFilter` structures
(same points array, same weights array, same count). -/
theorem combine_alternating_deterministic (r1 r2 : List EvalPoints)
    (h : ∀ p, signedW 1 r1 p = signedW 1 r2 p) :
    combine_alternating r1 = combine_alternating r2 := by
  rw [combine_alternating, combine_alternating, sortedEntries_eq_of_signedW r1 r2 h]

/-- Witness for C9: two different slot orders of the same rectangle
contributions aggregate identically. -/
theorem combine_alternating_deterministic_witness :
    combine_alternating [EvalPoints.new [(0, 0), (1, 0), (0, 1), (1, 1)] [1, -1, -1, 1]]
      = combine_alternating [EvalPoints.new [(1, 1), (1, 0), (0, 1), (0, 0)] [1, -1, -1, 1]] :=
  combine_alternating_deterministic _ _ (by
    intro p
    obtain ⟨px, py⟩ := p
    simp only [signedW, rectW, EvalPoints.new, List.zip, List.zipWith, List.map_cons,
      List.map_nil, List.sum_cons, List.sum_nil, Prod.mk.injEq]
    split_ifs <;> omega)

/-- C4: every filter actually produced by any of the five shape builders
(for extents at least 1, any anchor, either sign) satisfies the
canonical-form invariants `filterInv`: `count ≤ 9`, all active weights
non-zero, and active coordinates strictly ascending in `(y, x)` order. -/
theorem builders_canonical_invariants :
    (∀ t l dx1 dx2 dy sign f, 1 ≤ dx1 → 1 ≤ dx2 → 1 ≤ dy →
      HaarFilter.two_region_horizontal t l dx1 dx2 dy sign = some f → filterInv f)
    ∧ (∀ t l dx dy1 dy2 sign f, 1 ≤ dx → 1 ≤ dy1 → 1 ≤ dy2 →
      HaarFilter.two_region_vertical t l dx dy1 dy2 sign = some f → filterInv f)
    ∧ (∀ t l dx1 dx2 dx3 dy sign f, 1 ≤ dx1 → 1 ≤ dx2 → 1 ≤ dx3 → 1 ≤ dy →
      HaarFilter.three_region_horizontal t l dx1 dx2 dx3 dy sign = some f → filterInv f)
    ∧ (∀ t l dx dy1 dy2 dy3 sign f, 1 ≤ dx → 1 ≤ dy1 → 1 ≤ dy2 → 1 ≤ dy3 →
      HaarFilter.three_region_vertical t l dx dy1 dy2 dy3 sign = some f → filterInv f)
    ∧ (∀ t l dx1 dx2 dy1 dy2 sign f, 1 ≤ dx1 → 1 ≤ dx2 → 1 ≤ dy1 → 1 ≤ dy2 →
      HaarFilter.four_region t l dx1 dx2 dy1 dy2 sign = some f → filterInv f) := by
  refine ⟨?_, ?_, ?_, ?_, ?_⟩
  · intro t l dx1 dx2 dy sign f _ _ _ hf
    rw [HaarFilter.two_region_horizontal] at hf
    exact filterInv_of_map_mul _ _ sign f rfl hf
  · intro t l dx dy1 dy2 sign f _ _ _ hf
    rw [HaarFilter.two_region_vertical] at hf
    exact filterInv_of_map_mul _ _ sign f rfl hf
  · intro t l dx1 dx2 dx3 dy sign f _ _ _ _ hf
    rw [HaarFilter.three_region_horizontal] at hf
    exact filterInv_of_map_mul _ _ sign f rfl hf
  · intro t l dx dy1 dy2 dy3 sign f _ _ _ _ hf
    rw [HaarFilter.three_region_vertical] at hf
    exact filterInv_of_map_mul _ _ sign f rfl hf
  · intro t l dx1 dx2 dy1 dy2 sign f _ _ _ _ hf
    rw [HaarFilter.four_region] at hf
    exact filterInv_of_map_mul _ _ sign f rfl hf

/-- Witness for C4 on a concrete two-region horizontal build. -/
theorem builders_canonical_invariants_witness :
    filterInv ⟨[0, 0, 1, 0, 2, 0, 0, 1, 1, 1, 2, 1, 0, 0, 0, 0, 0, 0],
      [1, -2, 1, -1, 2, -1, 0, 0, 0], 6⟩ :=
  builders_canonical_invariants.1 1 1 1 1 1 Sign.Positive _
    (by decide) (by decide) (by decide) (by decide)

lemma map_evaluate_sign (rects : List EvalPoints) (I : Nat → Nat → Int) :
    ((combine_alternating rects).map (fun f => f.mul (multiplier Sign.Negative))).map
        (fun f => f.evaluate I)
      = ((combine_alternating rects).map (fun f => f.mul (multiplier Sign.Positive))).map
          (fun f => -(f.evaluate I)) := by
  cases hc : combine_alternating rects with
  | none => simp
  | some g => simp [evaluate_mul, multiplier]

/-- C5: for each of the five shape builders with identical geometry
(extents at least 1), evaluating the `Negative` build on any integral image
is the negation of evaluating the `Positive` build. -/
theorem builders_sign_inversion :
    (∀ t l dx1 dx2 dy I, 1 ≤ dx1 → 1 ≤ dx2 → 1 ≤ dy →
      (HaarFilter.two_region_horizontal t l dx1 dx2 dy Sign.Negative).map
          (fun f => f.evaluate I)
        = (HaarFilter.two_region_horizontal t l dx1 dx2 dy Sign.Positive).map
            (fun f => -(f.evaluate I)))
    ∧ (∀ t l dx dy1 dy2 I, 1 ≤ dx → 1 ≤ dy1 → 1 ≤ dy2 →
      (HaarFilter.two_region_vertical t l dx dy1 dy2 Sign.Negative).map
          (fun f => f.evaluate I)
        = (HaarFilter.two_region_vertical t l dx dy1 dy2 Sign.Positive).map
            (fun f => -(f.evaluate I)))
    ∧ (∀ t l dx1 dx2 dx3 dy I, 1 ≤ dx1 → 1 ≤ dx2 → 1 ≤ dx3 → 1 ≤ dy →
      (HaarFilter.three_region_horizontal t l dx1 dx2 dx3 dy Sign.Negative).map
          (fun f => f.evaluate I)
        = (HaarFilter.three_region_horizontal t l dx1 dx2 dx3 dy Sign.Positive).map
            (fun f => -(f.evaluate I)))
    ∧ (∀ t l dx dy1 dy2 dy3 I, 1 ≤ dx → 1 ≤ dy1 → 1 ≤ dy2 → 1 ≤ dy3 →
      (HaarFilter.three_region_vertical t l dx dy1 dy2 dy3 Sign.Negative).map
          (fun f => f.evaluate I)
        = (HaarFilter.three_region_vertical t l dx dy1 dy2 dy3 Sign.Positive).map
            (fun f => -(f.evaluate I)))
    ∧ (∀ t l dx1 dx2 dy1 dy2 I, 1 ≤ dx1 → 1 ≤ dx2 → 1 ≤ dy1 → 1 ≤ dy2 →
      (HaarFilter.four_region t l dx1 dx2 dy1 dy2 Sign.Negative).map
          (fun f => f.evaluate I)
        = (HaarFilter.four_region t l dx1 dx2 dy1 dy2 Sign.Positive).map
            (fun f => -(f.evaluate I))) := by
  refine ⟨?_, ?_, ?_, ?_, ?_⟩
  · intro t l dx1 dx2 dy I _ _ _
    rw [HaarFilter.two_region_horizontal, HaarFilter.two_region_horizontal]
    exact map_evaluate_sign _ I
  · intro t l dx dy1 dy2 I _ _ _
    rw [HaarFilter.two_region_vertical, HaarFilter.two_region_vertical]
    exact map_evaluate_sign _ I
  · intro t l dx1 dx2 dx3 dy I _ _ _ _
    rw [HaarFilter.three_region_horizontal, HaarFilter.three_region_horizontal]
    exact map_evaluate_sign _ I
  · intro t l dx dy1 dy2 dy3 I _ _ _ _
    rw [HaarFilter.three_region_vertical, HaarFilter.three_region_vertical]
    exact map_evaluate_sign _ I
  · intro t l dx1 dx2 dy1 dy2 I _ _ _ _
    rw [HaarFilter.four_region, HaarFilter.four_region]
    exact map_evaluate_sign _ I

/-- Witness for C5 on a concrete two-region horizontal geometry. -/
theorem builders_sign_inversion_witness :
    (HaarFilter.two_region_horizontal 1 1 1 1 1 Sign.Negative).map
        (fun f => f.evaluate wI)
      = (HaarFilter.two_region_horizontal 1 1 1 1 1 Sign.Positive).map
          (fun f => -(f.evaluate wI)) :=
  builders_sign_inversion.1 1 1 1 1 1 wI (by decide) (by decide) (by decide)
